import Mathlib

/-!
Verification of the muspinsim quantum-simulation core (spinop.py, experiment.py).

The Python code manipulates complex matrices with numpy.  The embedding uses
exact arithmetic: complex numbers with rational components (`CQ`), square
matrices as a size together with an entry function (`Mat`), and operators as a
Python-class tag, a dimension tuple and a matrix (`Op`).  Python exceptions
become `Except PyErr` results.  The two places where the code computes a real
square root (`** 0.5` in `_Sp`, `np.linalg.norm` in `set_starting_state`) are
parametrised by a function `sq : ℚ → ℚ` standing for the floating-point square
root; every theorem about those code paths is proved for all `sq`, and closed
instances use the stand-in `sqId` (which agrees with the true square root at 1,
the only point where a square-root value matters in a closed statement here).
-/

/-- Complex numbers with rational real and imaginary parts: the exact model of
the complex scalars that the numpy code manipulates. -/
structure CQ where
  re : ℚ
  im : ℚ
deriving DecidableEq

namespace CQ

@[ext] theorem ext2 {a b : CQ} (h1 : a.re = b.re) (h2 : a.im = b.im) : a = b := by
  cases a; cases b; cases h1; cases h2; rfl

instance : Zero CQ := ⟨⟨0, 0⟩⟩
instance : One CQ := ⟨⟨1, 0⟩⟩
instance : Add CQ := ⟨fun a b => ⟨a.re + b.re, a.im + b.im⟩⟩
instance : Neg CQ := ⟨fun a => ⟨-a.re, -a.im⟩⟩
instance : Mul CQ := ⟨fun a b => ⟨a.re * b.re - a.im * b.im, a.re * b.im + a.im * b.re⟩⟩

@[simp] theorem zero_re : (0 : CQ).re = 0 := rfl
@[simp] theorem zero_im : (0 : CQ).im = 0 := rfl
@[simp] theorem one_re : (1 : CQ).re = 1 := rfl
@[simp] theorem one_im : (1 : CQ).im = 0 := rfl
@[simp] theorem add_re (a b : CQ) : (a + b).re = a.re + b.re := rfl
@[simp] theorem add_im (a b : CQ) : (a + b).im = a.im + b.im := rfl
@[simp] theorem neg_re (a : CQ) : (-a).re = -a.re := rfl
@[simp] theorem neg_im (a : CQ) : (-a).im = -a.im := rfl
@[simp] theorem mul_re (a b : CQ) : (a * b).re = a.re * b.re - a.im * b.im := rfl
@[simp] theorem mul_im (a b : CQ) : (a * b).im = a.re * b.im + a.im * b.re := rfl

instance : CommRing CQ where
  add := (· + ·)
  add_assoc := by intros; ext <;> simp <;> ring
  zero := 0
  zero_add := by intros; ext <;> simp
  add_zero := by intros; ext <;> simp
  add_comm := by intros; ext <;> simp <;> ring
  mul := (· * ·)
  mul_assoc := by intros; ext <;> simp <;> ring
  one := 1
  one_mul := by intros; ext <;> simp
  mul_one := by intros; ext <;> simp
  left_distrib := by intros; ext <;> simp <;> ring
  right_distrib := by intros; ext <;> simp <;> ring
  zero_mul := by intros; ext <;> simp
  mul_zero := by intros; ext <;> simp
  neg := (- ·)
  neg_add_cancel := by intros; ext <;> simp
  mul_comm := by intros; ext <;> simp <;> ring
  nsmul := nsmulRec
  zsmul := zsmulRec

/-- Complex conjugate. -/
def conj (a : CQ) : CQ := ⟨a.re, -a.im⟩

@[simp] theorem conj_re (a : CQ) : a.conj.re = a.re := rfl
@[simp] theorem conj_im (a : CQ) : a.conj.im = -a.im := rfl

/-- Complex division, by the standard exact formula (numpy's complex `/`). -/
def div (a b : CQ) : CQ :=
  ⟨(a.re * b.re + a.im * b.im) / (b.re ^ 2 + b.im ^ 2),
   (a.im * b.re - a.re * b.im) / (b.re ^ 2 + b.im ^ 2)⟩

@[simp] theorem div_re (a b : CQ) :
    (a.div b).re = (a.re * b.re + a.im * b.im) / (b.re ^ 2 + b.im ^ 2) := rfl
@[simp] theorem div_im (a b : CQ) :
    (a.div b).im = (a.im * b.re - a.re * b.im) / (b.re ^ 2 + b.im ^ 2) := rfl

@[simp] theorem div_one (a : CQ) : a.div 1 = a := by
  ext <;> simp

/-- Multiplication of a complex value by a real (rational) scalar, the way numpy
scales a complex array by a real weight. -/
def smulQ (w : ℚ) (a : CQ) : CQ := ⟨w * a.re, w * a.im⟩

@[simp] theorem smulQ_re (w : ℚ) (a : CQ) : (smulQ w a).re = w * a.re := rfl
@[simp] theorem smulQ_im (w : ℚ) (a : CQ) : (smulQ w a).im = w * a.im := rfl

/-- Division of a complex value by a real (rational) scalar, componentwise. -/
def divQ (a : CQ) (w : ℚ) : CQ := ⟨a.re / w, a.im / w⟩

@[simp] theorem divQ_re (a : CQ) (w : ℚ) : (a.divQ w).re = a.re / w := rfl
@[simp] theorem divQ_im (a : CQ) (w : ℚ) : (a.divQ w).im = a.im / w := rfl

end CQ

/-! ## Square complex matrices -/

/-- A square complex matrix: a side length `n` and an entry function.  Entries
at indices `≥ n` are irrelevant (every comparison and reduction below is
restricted to indices `< n`), except where two matrices are compared with
Lean's `=`, in which case both sides are built by the same formula. -/
structure Mat where
  n : ℕ
  entry : ℕ → ℕ → CQ

namespace Mat

/-- `numpy` transpose `m.T`. -/
def transpose (A : Mat) : Mat := ⟨A.n, fun i j => A.entry j i⟩

/-- Elementwise sum `m1 + m2` (numpy requires equal shapes; the first operand's
size is kept). -/
def add (A B : Mat) : Mat := ⟨A.n, fun i j => A.entry i j + B.entry i j⟩

/-- Elementwise difference `m1 - m2`. -/
def sub (A B : Mat) : Mat := ⟨A.n, fun i j => A.entry i j - B.entry i j⟩

/-- Scalar multiple `m * c` of a matrix by a complex number. -/
def smul (A : Mat) (c : CQ) : Mat := ⟨A.n, fun i j => A.entry i j * c⟩

/-- Elementwise (Hadamard) product `m1 * m2` of two numpy arrays. -/
def hadamard (A B : Mat) : Mat := ⟨A.n, fun i j => A.entry i j * B.entry i j⟩

/-- Matrix product `np.dot(m1, m2)`. -/
def mulM (A B : Mat) : Mat :=
  ⟨A.n, fun i j => ∑ k ∈ Finset.range A.n, A.entry i k * B.entry k j⟩

/-- `np.trace`. -/
def tr (A : Mat) : CQ := ∑ i ∈ Finset.range A.n, A.entry i i

/-- `np.sum` over all entries of a matrix. -/
def sumAll (A : Mat) : CQ :=
  ∑ i ∈ Finset.range A.n, ∑ j ∈ Finset.range A.n, A.entry i j

/-- Kronecker product `np.kron`: `K[i,j] = A[i / nB, j / nB] * B[i % nB, j % nB]`
on a square of side `nA * nB`. -/
def kron (A B : Mat) : Mat :=
  ⟨A.n * B.n, fun i j => A.entry (i / B.n) (j / B.n) * B.entry (i % B.n) (j % B.n)⟩

/-- Division of every entry by a complex scalar (`self._matrix /= tr`). -/
def divC (A : Mat) (t : CQ) : Mat := ⟨A.n, fun i j => (A.entry i j).div t⟩

/-- `np.eye n` (promoted to complex). -/
def eye (n : ℕ) : Mat := ⟨n, fun i j => if i = j then 1 else 0⟩

/-- `np.diag` of a list of complex values. -/
def diagC (l : List CQ) : Mat :=
  ⟨l.length, fun i j => if i = j then l.getD i 0 else 0⟩

/-- `np.diag` of a list of real values (promoted to complex). -/
def diagQ (l : List ℚ) : Mat :=
  ⟨l.length, fun i j => if i = j then ⟨l.getD i 0, 0⟩ else 0⟩

/-- The Hermiticity test of `Operator.is_hermitian`:
`np.all(matrix == matrix.conj().T)`, an exact entrywise comparison. -/
def isHermitian (A : Mat) : Prop :=
  ∀ i ∈ Finset.range A.n, ∀ j ∈ Finset.range A.n, (A.entry j i).conj = A.entry i j

instance (A : Mat) : Decidable A.isHermitian := by unfold isHermitian; infer_instance

/-- `M† = -M`: the matrix is anti-Hermitian (entrywise, below the size). -/
def isAntiHermitian (A : Mat) : Prop :=
  ∀ i ∈ Finset.range A.n, ∀ j ∈ Finset.range A.n, (A.entry j i).conj = -A.entry i j

instance (A : Mat) : Decidable A.isAntiHermitian := by
  unfold isAntiHermitian; infer_instance

/-- `np.all(m1 == m2)` together with the shape agreement that numpy's broadcast
of `==` presupposes. -/
def eqv (A B : Mat) : Prop :=
  A.n = B.n ∧ ∀ i ∈ Finset.range A.n, ∀ j ∈ Finset.range A.n, A.entry i j = B.entry i j

instance (A B : Mat) : Decidable (A.eqv B) := by unfold eqv; infer_instance

/-- Build a matrix from a list of rows (row-major literal), for concrete
inputs. -/
def ofRows (rows : List (List CQ)) : Mat :=
  ⟨rows.length, fun i j => ((rows.getD i []).getD j 0)⟩

end Mat

/-! ## Python-level operator classes, errors, and the Operator hierarchy -/

/-- Python exceptions raised by the code, with the message of the raise site
(format placeholders dropped). -/
inductive PyErr where
  | valueError (msg : String)
  | typeError (msg : String)
  | arithmeticError (msg : String)
deriving DecidableEq

/-- The concrete Python class of an object of the `Operator` hierarchy:
`SpinOperator` and `DensityOperator` both subclass `Operator` (and neither
subclasses the other), so `isinstance(x, SpinOperator)` holds exactly for the
`spinOperator` tag. -/
inductive OpClass where
  | operator
  | spinOperator
  | densityOperator
deriving DecidableEq

/-- An object of the `Operator` hierarchy: its Python class, its subsystem
dimension tuple `_dim`, and its matrix `_matrix`. -/
structure Op where
  cls : OpClass
  dim : List ℕ
  M : Mat

/-- `np.prod` of a dimension tuple. -/
def prodL (l : List ℕ) : ℕ := l.foldr (· * ·) 1

namespace Op

/-- `Operator.__init__`: the squareness check is automatic for `Mat`; if no
dimension tuple is given it defaults to `(matrix_side,)`, otherwise its product
must match the matrix side. -/
def init (cls : OpClass) (matrix : Mat) (dim : Option (List ℕ)) : Except PyErr Op :=
  match dim with
  | none => .ok ⟨cls, [matrix.n], matrix⟩
  | some d =>
      if prodL d = matrix.n then .ok ⟨cls, d, matrix⟩
      else .error (.valueError "Dimensions are not compatible with matrix")

/-- `Operator.__add__` between two Operators: equal dimension tuples required,
result keeps the class of the left operand (`clone`). -/
def addOp (a b : Op) : Except PyErr Op :=
  if a.dim = b.dim then .ok ⟨a.cls, a.dim, a.M.add b.M⟩
  else .error (.arithmeticError "Can not multiply to Operators with different dimensions")

/-- `Operator.__sub__` between two Operators. -/
def subOp (a b : Op) : Except PyErr Op :=
  if a.dim = b.dim then .ok ⟨a.cls, a.dim, a.M.sub b.M⟩
  else .error (.arithmeticError "Can not multiply to Operators with different dimensions")

/-- `Operator.__mul__` (equivalently `__rmul__`) with a scalar `Number`:
`ans._matrix *= x`, never fails. -/
def smulOp (a : Op) (c : CQ) : Op := ⟨a.cls, a.dim, a.M.smul c⟩

/-- `Operator.kron`: concatenates dimension tuples, Kronecker product of
matrices, keeps the class of the left operand; total between Operators. -/
def kron (a b : Op) : Op := ⟨a.cls, a.dim ++ b.dim, a.M.kron b.M⟩

/-- `Operator.__eq__` between two Operators: dimension tuples equal and exact
matrix equality. -/
def eqv (a b : Op) : Prop := a.dim = b.dim ∧ a.M.eqv b.M

instance (a b : Op) : Decidable (a.eqv b) := by unfold eqv; infer_instance

/-- `DensityOperator.expectation`: `isinstance(operator, SpinOperator)` check
first (`TypeError`), then the dimension-tuple comparison (`ValueError`), then
`np.sum(operator.matrix * self.matrix.T)`. -/
def expectation (rho : Op) (x : Op) : Except PyErr CQ :=
  if x.cls ≠ .spinOperator then
    .error (.typeError "Argument must be a SpinOperator")
  else if ¬ (x.dim = rho.dim) then
    .error (.valueError "SpinOperator and DensityOperator do not have compatible dimensions")
  else
    .ok ((x.M.hadamard rho.M.transpose).sumAll)

end Op

/-- `DensityOperator.__init__`: run `Operator.__init__`, then compute the
trace, fail if it is zero, otherwise divide the matrix by the trace
(`normalize`), and only then check Hermiticity. -/
def DensityOperator.init (matrix : Mat) (dim : Option (List ℕ)) : Except PyErr Op := do
  let base ← Op.init .densityOperator matrix dim
  let t := base.M.tr
  if t = 0 then
    .error (.valueError "Can not define a DensityOperator with zero trace")
  else
    let nrm : Op := ⟨base.cls, base.dim, base.M.divC t⟩
    if nrm.M.isHermitian then .ok nrm
    else .error (.valueError "DensityOperator must be hermitian!")

/-- `Bool`-level success test for an `Except` result. -/
def exOk {ε α : Type} : Except ε α → Bool
  | .ok _ => true
  | .error _ => false

/-! ## SpinOperator.from_axes -/

/-- Python's `%` on rationals (`a - b * floor (a / b)`), used by the spin
validity check `I % 0.5`. -/
def qmod (a b : ℚ) : ℚ := a - b * ⌊a / b⌋

/-- `int(2 * I + 1)`, the single-spin matrix side. -/
def natDim (I : ℚ) : ℕ := (⌊2 * I + 1⌋).toNat

/-- `np.linspace a b n`: `n` evenly spaced points from `a` to `b` inclusive. -/
def linspaceQ (a b : ℚ) (n : ℕ) : List ℚ :=
  (List.range n).map (fun j : ℕ => a + (j : ℚ) * ((b - a) / ((n : ℚ) - 1)))

/-- The `m`-value sequence `np.linspace(I, -I, int(2 * I + 1))`. -/
def mvals (I : ℚ) : List ℚ := linspaceQ I (-I) (natDim I)

/-- `np.cumsum` of a list of rationals. -/
def cumsum (l : List ℚ) : List ℚ :=
  (List.range l.length).map (fun j => ((l.take (j + 1)).sum))

/-- `_Sp(mvals)`: the raising operator, `np.diag(0.5 * (cumsum(2 * mvals)[:-1] ** 0.5), k=1)`,
a real superdiagonal promoted to complex; `sq` stands for the square root. -/
def Sp (sq : ℚ → ℚ) (mv : List ℚ) : Mat :=
  let v := ((cumsum (mv.map (fun m => 2 * m))).dropLast).map (fun c => (1 / 2 : ℚ) * sq c)
  ⟨mv.length, fun i j => if j = i + 1 then ⟨v.getD i 0, 0⟩ else 0⟩

/-- `_Sm(mvals) = _Sp(mvals).T`. -/
def Sm (sq : ℚ → ℚ) (mv : List ℚ) : Mat := (Sp sq mv).transpose

/-- `_Sx(mvals) = o + o.T` where `o = _Sp(mvals)`. -/
def Sx (sq : ℚ → ℚ) (mv : List ℚ) : Mat := (Sp sq mv).add (Sp sq mv).transpose

/-- `_Sy(mvals) = 1j * (o.T - o)` where `o = _Sp(mvals)`. -/
def Sy (sq : ℚ → ℚ) (mv : List ℚ) : Mat := ((Sp sq mv).transpose.sub (Sp sq mv)).smul ⟨0, 1⟩

/-- `_Sz(mvals) = np.diag(mvals) + 0j`. -/
def Sz (mv : List ℚ) : Mat := Mat.diagQ mv

/-- `_S0(mvals) = np.eye(len(mvals)) + 0j`. -/
def S0 (mv : List ℚ) : Mat := Mat.eye mv.length

/-- The axis dispatch dictionary of `from_axes`.  The final catch-all case is
unreachable: `from_axes` validates `axis in 'xyz+-0'` before the lookup. -/
def axMat (sq : ℚ → ℚ) (mv : List ℚ) (ax : Char) : Mat :=
  if ax = 'x' then Sx sq mv
  else if ax = 'y' then Sy sq mv
  else if ax = 'z' then Sz mv
  else if ax = '+' then Sp sq mv
  else if ax = '-' then Sm sq mv
  else S0 mv

/-- The loop body of `from_axes`: validate each spin and axis in order, then
build each single-spin matrix. -/
def buildMats (sq : ℚ → ℚ) : List (ℚ × Char) → Except PyErr (List Mat)
  | [] => .ok []
  | (I, ax) :: rest =>
      if qmod I (1 / 2) ≠ 0 ∨ I < 1 / 2 then
        .error (.valueError "is not a valid spin value")
      else if ¬ (ax ∈ ['x', 'y', 'z', '+', '-', '0']) then
        .error (.valueError "is not a valid spin axis")
      else do
        let ms ← buildMats sq rest
        .ok (axMat sq (mvals I) ax :: ms)

/-- `SpinOperator.from_axes`: length check, per-subsystem validation and
single-spin matrices, Kronecker fold in list order, then `Operator.__init__`
with the `(2I+1, ...)` dimension tuple and the `SpinOperator` class. -/
def SpinOperator.fromAxes (sq : ℚ → ℚ) (Is : List ℚ) (axes : List Char) : Except PyErr Op :=
  if Is.length ≠ axes.length ∨ Is.length = 0 then
    .error (.valueError "Arrays of moments and axes must have same length > 0")
  else do
    let dim := Is.map natDim
    let mats ← buildMats sq (Is.zip axes)
    match mats with
    | [] => .error (.valueError "Arrays of moments and axes must have same length > 0")
    | m :: ms => Op.init .spinOperator (ms.foldl Mat.kron m) (some dim)

/-- Stand-in used to instantiate the square-root parameter `sq` in closed
statements.  It agrees with the true square root at `1` (`sqId 1 = 1`), the
only argument whose square-root value a closed statement below depends on;
every universally quantified theorem holds for all `sq`. -/
def sqId : ℚ → ℚ := fun q => q

/-! ## DensityOperator.partial_trace -/

/-- Row-major flattening of a multi-index over a dimension list
(`numpy`'s C-order `reshape`). -/
def flatten : List ℕ → List ℕ → ℕ
  | [], _ => 0
  | _ :: _, [] => 0
  | _ :: ds, a :: as => a * prodL ds + flatten ds as

/-- Row-major splitting of a flat index into a multi-index over a dimension
list (inverse of `flatten`). -/
def unflatten : List ℕ → ℕ → List ℕ
  | [], _ => []
  | _ :: ds, r => (r / prodL ds) :: unflatten ds (r % prodL ds)

/-- All multi-indices over a dimension list, the ranges that a multi-axis
`np.sum` runs over. -/
def allIdx : List ℕ → List (List ℕ)
  | [] => [[]]
  | d :: ds => ((List.range d).map (fun a => (allIdx ds).map (a :: ·))).flatten

/-- Re-interleave a kept multi-index and a summed multi-index back into a full
multi-index: position `p` takes the next summed component when `p ∈ td`,
otherwise the next kept component. -/
def mergeIdx (td : List ℕ) : List ℕ → List ℕ → List ℕ → List ℕ
  | [], _, _ => []
  | p :: ps, kept, tr =>
      if p ∈ td then tr.headD 0 :: mergeIdx td ps kept tr.tail
      else kept.headD 0 :: mergeIdx td ps kept.tail tr

/-- `DensityOperator.partial_trace(tracedim)`:
`m = matrix.reshape(dim + dim)` views the matrix as a tensor whose entry at
`(a_1..a_k, b_1..b_k)` is `matrix[flatten dim a, flatten dim b]`;
`np.sum(m, axis=tracedim + (tracedim + k))` then sums each listed axis
independently over its whole range (row axes `tracedim` and column axes
`tracedim + k`); the result is reshaped to a square over the remaining
dimensions (row-major), and the new object is created with `__new__`, so no
`DensityOperator.__init__` normalization or check runs. -/
def Op.ptrace (rho : Op) (tracedim : List ℕ) : Op :=
  let k := rho.dim.length
  let kept := ((List.range k).filter (fun p => ¬ (p ∈ tracedim))).map (fun p => rho.dim.getD p 0)
  let tds := ((List.range k).filter (fun p => p ∈ tracedim)).map (fun p => rho.dim.getD p 0)
  let ent : ℕ → ℕ → CQ := fun p q =>
    ((allIdx tds).map (fun a =>
      ((allIdx tds).map (fun b =>
        rho.M.entry
          (flatten rho.dim (mergeIdx tracedim (List.range k) (unflatten kept p) a))
          (flatten rho.dim (mergeIdx tracedim (List.range k) (unflatten kept q) b)))).sum)).sum
  ⟨.densityOperator, kept, ⟨prodL kept, ent⟩⟩

/-! ## MuonExperiment (experiment.py) -/

/-- Planck constant (`scipy.constants.h`), exact SI value. -/
def hPlanck : ℚ := 662607015 / 10 ^ 42

/-- Boltzmann constant (`scipy.constants.k`), exact SI value. -/
def kBoltz : ℚ := 1380649 / 10 ^ 29

/-- Temperature: a finite rational value or `np.inf` (`none`). -/
def TempK : Type := Option ℚ

/-- The test `T > 0` of `set_starting_state` (true at `np.inf`). -/
def tempPos : TempK → Bool
  | none => true
  | some t => decide (0 < t)

/-- The Boltzmann-exponent argument `-cnst.h * E / (cnst.k * T)`; at `np.inf`
the quotient of a finite value by infinity is `0`. -/
def bolArg (T : TempK) (e : ℚ) : ℚ :=
  match T with
  | none => 0
  | some t => (-(hPlanck * e)) / (kBoltz * t)

/-- `np.amin` of a list (`0` on the empty list, unreachable in the code). -/
def listMin : List ℚ → ℚ
  | [] => 0
  | x :: xs => xs.foldl min x

/-- The raw thermal weight vector `Z` of `set_starting_state` for a non-muon
subsystem with Zeeman level energies `E` at temperature `T`, with `expF`
standing for the floating-point `np.exp`:
if `T > 0`, `Z = np.exp(-cnst.h * E / (cnst.k * T))`, otherwise
`Z = np.where(E == np.amin(E), 1.0, 0.0)`. -/
def thermalZraw (expF : ℚ → ℚ) (E : List ℚ) (T : TempK) : List ℚ :=
  if tempPos T then E.map (fun e => expF (bolArg T e))
  else E.map (fun e => if e = listMin E then 1 else 0)

/-- The final renormalization of `set_starting_state`: `Z /= np.sum(Z)` when
`np.sum(Z) > 0`, otherwise `Z = np.ones(len(E)) / len(E)`. -/
def normalizeZ (n : ℕ) (Z : List ℚ) : List ℚ :=
  if 0 < Z.sum then Z.map (fun z => z / Z.sum)
  else List.replicate n (1 / (n : ℚ))

/-- The thermal population vector of `set_starting_state`: the raw weights
followed by the renormalization-or-uniform-fallback step. -/
def thermalZ (expF : ℚ → ℚ) (E : List ℚ) (T : TempK) : List ℚ :=
  normalizeZ E.length (thermalZraw expF E T)

/-- The diagonal thermal density matrix `DensityOperator(np.diag(Z))` built by
`set_starting_state` for a non-muon subsystem. -/
def thermalDensity (expF : ℚ → ℚ) (E : List ℚ) (T : TempK) : Except PyErr Op :=
  DensityOperator.init (Mat.diagQ (thermalZ expF E T)) none

/-- The `muon_axis` argument of `set_starting_state`: a string or a vector. -/
inductive MuonAxisArg where
  | str (s : String)
  | vec (v : List ℚ)

/-- The `muon_axis` handling of `set_starting_state`: a string is looked up in
the x/y/z dictionary (`KeyError` becomes the `ValueError`); any non-string is
converted to an array and divided by its Euclidean norm
(`np.linalg.norm v = sqrt (sum of squares)`, with `sq` standing for the square
root); no other validation happens here. -/
def resolveMuonAxis (sq : ℚ → ℚ) : MuonAxisArg → Except PyErr (List ℚ)
  | .str s =>
      if s = "x" then .ok [1, 0, 0]
      else if s = "y" then .ok [0, 1, 0]
      else if s = "z" then .ok [0, 0, 1]
      else .error (.valueError "muon_axis must be a vector or x, y or z")
  | .vec v => .ok (v.map (fun x => x / sq ((v.map (fun y => y * y)).sum)))

/-- The averaging step of `run_experiment` for one requested result kind and
one scalar component: `np.real(np.average(data, axis=0, weights=weights))`,
i.e. the real part of `(sum_i weights_i * data_i) / (sum_i weights_i)`. -/
def weightedRealAvg (data : List CQ) (weights : List ℚ) : ℚ :=
  (((List.zipWith CQ.smulQ weights data).sum).divQ
    (weights.sum)).re

/-- Modelled from the spec: the per-orientation result of `run_experiment`'s
loop body, a deterministic function `f` of the orientation angles `(theta,
phi)` — the rotated-Hamiltonian construction and the `evolve` /
`integrate_decaying` computations live in `spinsys.py` / `hamiltonian.py`,
which are not part of the excerpt.  `run_experiment` maps it over the
orientation list and averages with the weight list. -/
def runExperimentAvg (f : ℚ × ℚ → CQ) (orients : List (ℚ × ℚ)) (weights : List ℚ) : ℚ :=
  weightedRealAvg (orients.map f) weights

/-- `set_single_crystal(theta, phi)`: orientation list `[[theta, phi]]` and
weight list `np.ones(1)`. -/
def setSingleCrystal (theta phi : ℚ) : List (ℚ × ℚ) × List ℚ := ([(theta, phi)], [1])

/-! ## Auxiliary definitions and concrete instances -/

instance {ε α : Type} [DecidableEq ε] [DecidableEq α] : DecidableEq (Except ε α) := fun a b =>
  match a, b with
  | .ok x, .ok y =>
      if h : x = y then .isTrue (by rw [h]) else .isFalse (fun hc => h (by injection hc))
  | .ok _, .error _ => .isFalse (fun hc => Except.noConfusion hc)
  | .error _, .ok _ => .isFalse (fun hc => Except.noConfusion hc)
  | .error e, .error f =>
      if h : e = f then .isTrue (by rw [h]) else .isFalse (fun hc => h (by injection hc))

/-- The spin values that pass the `from_axes` validation, i.e. the complement
of the raise condition `I % 0.5 or I < 0.5`. -/
def spinAccept (I : ℚ) : Prop := qmod I (1 / 2) = 0 ∧ 1 / 2 ≤ I

instance (I : ℚ) : Decidable (spinAccept I) := by unfold spinAccept; infer_instance

/-- Anti-Hermitian, non-zero-trace counterexample input: `diag(i, i)`. -/
def ahM : Mat := Mat.ofRows [[⟨0, 1⟩, 0], [0, ⟨0, 1⟩]]

/-- A valid density matrix with complex off-diagonal entries:
`[[1/2, i], [-i, 1/2]]` (Hermitian, trace `1`). -/
def rhoCexM : Mat := Mat.ofRows [[⟨1/2, 0⟩, ⟨0, 1⟩], [⟨0, -1⟩, ⟨1/2, 0⟩]]

/-- The expectation value of the spin-1/2 raising operator on `rhoCexM`,
computed through the public constructors. -/
def expectationCex : Except PyErr CQ := do
  let r ← DensityOperator.init rhoCexM none
  let p ← SpinOperator.fromAxes sqId [1/2] ['+']
  r.expectation p

/-- The product state `|+⟩⟨+| ⊗ |0⟩⟨0|` of two spin-1/2 subsystems (Hermitian,
trace `1`): the partial-trace failing input. -/
def ptCexM : Mat := Mat.ofRows
  [[⟨1/2, 0⟩, 0, ⟨1/2, 0⟩, 0],
   [0, 0, 0, 0],
   [⟨1/2, 0⟩, 0, ⟨1/2, 0⟩, 0],
   [0, 0, 0, 0]]

/-- `partial_trace([0])` of the density operator built from `ptCexM`, reported
as (dimension tuple, trace, the four entries). -/
def ptCexRun : Except PyErr (List ℕ × CQ × CQ × CQ × CQ × CQ) :=
  (DensityOperator.init ptCexM (some [2, 2])).map (fun r =>
    ((r.ptrace [0]).dim, (r.ptrace [0]).M.tr,
     (r.ptrace [0]).M.entry 0 0, (r.ptrace [0]).M.entry 0 1,
     (r.ptrace [0]).M.entry 1 0, (r.ptrace [0]).M.entry 1 1))

/-! ## Helper lemmas -/

/-- The real part of a finite sum of complex values. -/
theorem CQ.re_sum {α : Type} (s : Finset α) (f : α → CQ) :
    (∑ i ∈ s, f i).re = ∑ i ∈ s, (f i).re := by
  classical
  induction s using Finset.induction_on with
  | empty => rfl
  | insert h ih => rename_i a t; rw [Finset.sum_insert h, Finset.sum_insert h, CQ.add_re, ih]

/-- The trace of an anti-Hermitian matrix is purely imaginary. -/
theorem tr_re_of_antiHermitian (M : Mat) (hA : M.isAntiHermitian) : M.tr.re = 0 := by
  unfold Mat.tr
  rw [CQ.re_sum]
  refine Finset.sum_eq_zero (fun i hi => ?_)
  have h := congrArg CQ.re (hA i hi i hi)
  simp only [CQ.conj_re, CQ.neg_re] at h
  linarith

/-- Dividing an anti-Hermitian matrix by a purely imaginary scalar yields an
exactly Hermitian matrix. -/
theorem divC_hermitian_of_antiHermitian (M : Mat) (t : CQ) (hA : M.isAntiHermitian)
    (htre : t.re = 0) : (M.divC t).isHermitian := by
  intro i hi j hj
  have h1 := congrArg CQ.re (hA i hi j hj)
  have h2 := congrArg CQ.im (hA i hi j hj)
  simp only [CQ.conj_re, CQ.conj_im, CQ.neg_re, CQ.neg_im, neg_inj] at h1 h2
  show ((M.entry j i).div t).conj = (M.entry i j).div t
  ext
  · simp only [CQ.conj_re, CQ.div_re]
    rw [h1, h2, htre]; ring_nf
  · simp only [CQ.conj_im, CQ.div_im]
    rw [h1, h2, htre]; ring_nf


/-- Componentwise form of `CQ` subtraction. -/
@[simp] theorem CQ.sub_re (a b : CQ) : (a - b).re = a.re - b.re := by
  rw [sub_eq_add_neg, CQ.add_re, CQ.neg_re]; ring

/-- Componentwise form of `CQ` subtraction, imaginary part. -/
@[simp] theorem CQ.sub_im (a b : CQ) : (a - b).im = a.im - b.im := by
  rw [sub_eq_add_neg, CQ.add_im, CQ.neg_im]; ring

/-- Literal addition on `CQ`. -/
@[simp] theorem CQ.mk_add_mk (a b c d : ℚ) : (⟨a, b⟩ : CQ) + ⟨c, d⟩ = ⟨a + c, b + d⟩ := rfl

/-- Literal negation on `CQ`. -/
@[simp] theorem CQ.neg_mk (a b : ℚ) : -(⟨a, b⟩ : CQ) = ⟨-a, -b⟩ := rfl

/-- Literal multiplication on `CQ`. -/
@[simp] theorem CQ.mk_mul_mk (a b c d : ℚ) :
    (⟨a, b⟩ : CQ) * ⟨c, d⟩ = ⟨a * c - b * d, a * d + b * c⟩ := rfl

/-- The zero of `CQ` as a literal. -/
theorem CQ.zero_def : (0 : CQ) = ⟨0, 0⟩ := rfl

/-- The one of `CQ` as a literal. -/
theorem CQ.one_def : (1 : CQ) = ⟨1, 0⟩ := rfl

/-- `DensityOperator.__init__` without a dimension argument, reduced to its
check-and-normalize cascade. -/
theorem densityInit_eval (M : Mat) :
    DensityOperator.init M none =
      if M.tr = 0 then
        .error (.valueError "Can not define a DensityOperator with zero trace")
      else if (M.divC M.tr).isHermitian then
        .ok ⟨.densityOperator, [M.n], M.divC M.tr⟩
      else .error (.valueError "DensityOperator must be hermitian!") := rfl

/-- `Operator.__init__` with a dimension argument, reduced to its check. -/
theorem opInit_some_eval (cls : OpClass) (M : Mat) (d : List ℕ) :
    Op.init cls M (some d) =
      if prodL d = M.n then .ok ⟨cls, d, M⟩
      else .error (.valueError "Dimensions are not compatible with matrix") := rfl

/-- `DensityOperator.__init__` with a matching dimension argument, reduced to
its check-and-normalize cascade. -/
theorem densityInit_some_eval (M : Mat) (d : List ℕ) (hd : prodL d = M.n) :
    DensityOperator.init M (some d) =
      if M.tr = 0 then
        .error (.valueError "Can not define a DensityOperator with zero trace")
      else if (M.divC M.tr).isHermitian then
        .ok ⟨.densityOperator, d, M.divC M.tr⟩
      else .error (.valueError "DensityOperator must be hermitian!") := by
  unfold DensityOperator.init
  rw [opInit_some_eval, if_pos hd]
  rfl

/-- Equality of a `CQ` literal with zero. -/
@[simp] theorem CQ.mk_eq_zero (a b : ℚ) : (⟨a, b⟩ : CQ) = 0 ↔ a = 0 ∧ b = 0 := by
  constructor
  · intro h; exact ⟨congrArg CQ.re h, congrArg CQ.im h⟩
  · intro h; ext <;> simp [h.1, h.2]

/-- Equality of zero with a `CQ` literal. -/
@[simp] theorem CQ.zero_eq_mk (a b : ℚ) : (0 : CQ) = ⟨a, b⟩ ↔ a = 0 ∧ b = 0 := by
  rw [eq_comm, CQ.mk_eq_zero]

/-- Equality of a `CQ` literal with one. -/
@[simp] theorem CQ.mk_eq_one (a b : ℚ) : (⟨a, b⟩ : CQ) = 1 ↔ a = 1 ∧ b = 0 := by
  constructor
  · intro h; exact ⟨congrArg CQ.re h, congrArg CQ.im h⟩
  · intro h; ext <;> simp [h.1, h.2]

/-! ## C1 — DensityOperator on anti-Hermitian input -/

/-- C1 (amended): for every square complex matrix `M` with `M† = -M` and
`trace M ≠ 0`, `DensityOperator(M)` does NOT raise the Hermiticity error: the
zero-trace check passes, the matrix is divided by its (necessarily purely
imaginary) trace in that order, and the Hermiticity check then passes because
the normalized matrix is exactly Hermitian, so construction succeeds. -/
theorem densityop_antihermitian_nonzero_trace_succeeds (M : Mat)
    (hA : M.isAntiHermitian) (ht : M.tr ≠ 0) :
    DensityOperator.init M none = .ok ⟨.densityOperator, [M.n], M.divC M.tr⟩ := by
  have hherm : (M.divC M.tr).isHermitian :=
    divC_hermitian_of_antiHermitian M M.tr hA (tr_re_of_antiHermitian M hA)
  rw [densityInit_eval, if_neg ht, if_pos hherm]

/-- C1 counterexample: `diag(i, i)` is anti-Hermitian with non-zero trace, yet
`DensityOperator(diag(i, i))` succeeds instead of raising the Hermiticity
error. -/
theorem densityop_antihermitian_counterexample :
    ahM.isAntiHermitian ∧ ahM.tr ≠ 0 ∧
    exOk (DensityOperator.init ahM none) = true := by
  have hA : ahM.isAntiHermitian := by
    intro i hi j hj
    fin_cases hi <;> fin_cases hj <;>
      norm_num [ahM, Mat.ofRows, List.getD, CQ.conj, CQ.neg_mk, CQ.mk.injEq]
  have h1 : ahM.tr ≠ 0 := by
    norm_num [Mat.tr, ahM, Mat.ofRows, Finset.sum_range_succ, List.getD]
  have htr : ahM.tr = ⟨0, 2⟩ := by
    norm_num [Mat.tr, ahM, Mat.ofRows, Finset.sum_range_succ, List.getD, CQ.mk.injEq]
  have h2 : (ahM.divC ahM.tr).isHermitian := by
    intro i hi j hj
    show ((ahM.entry j i).div ahM.tr).conj = (ahM.entry i j).div ahM.tr
    rw [htr]
    fin_cases hi <;> fin_cases hj <;>
      norm_num [ahM, Mat.ofRows, List.getD, CQ.div, CQ.conj, CQ.mk.injEq]
  refine ⟨hA, h1, ?_⟩
  rw [densityInit_eval, if_neg h1, if_pos h2]
  rfl

/-- C1 witness: the amended theorem applied to `diag(i, i)`. -/
theorem densityop_antihermitian_witness :
    ahM.isAntiHermitian ∧ ahM.tr ≠ 0 ∧
    DensityOperator.init ahM none = .ok ⟨.densityOperator, [2], ahM.divC ahM.tr⟩ := by
  have hA : ahM.isAntiHermitian := by
    intro i hi j hj
    fin_cases hi <;> fin_cases hj <;>
      norm_num [ahM, Mat.ofRows, List.getD, CQ.conj, CQ.neg_mk, CQ.mk.injEq]
  have h1 : ahM.tr ≠ 0 := by
    norm_num [Mat.tr, ahM, Mat.ofRows, Finset.sum_range_succ, List.getD]
  exact ⟨hA, h1, densityop_antihermitian_nonzero_trace_succeeds ahM hA h1⟩

/-! ## C10 — expectation type check comes first -/

/-- C10: `DensityOperator.expectation` rejects every argument that is not a
`SpinOperator` instance with the `TypeError`, whatever the dimension tuples
are (the type check precedes the dimension comparison and the numeric
work). -/
theorem expectation_typecheck_first (rho x : Op) (h : x.cls ≠ .spinOperator) :
    rho.expectation x = .error (.typeError "Argument must be a SpinOperator") := by
  unfold Op.expectation
  rw [if_pos h]

/-- C10 witness: a plain `Operator` with the identical dimension tuple is
rejected with the `TypeError`. -/
theorem expectation_typecheck_witness :
    (Op.mk .operator [2] (Mat.eye 2)).cls ≠ OpClass.spinOperator ∧
    Op.expectation (Op.mk .densityOperator [2] (Mat.eye 2)) (Op.mk .operator [2] (Mat.eye 2)) =
      .error (.typeError "Argument must be a SpinOperator") :=
  ⟨by decide, expectation_typecheck_first _ _ (by decide)⟩

/-! ## C3 — partial_trace does not preserve the trace -/

/-- Dividing a matrix by the complex scalar `1` leaves it unchanged. -/
theorem Mat.divC_one (A : Mat) : A.divC 1 = A := by
  show Mat.mk A.n (fun i j => (A.entry i j).div 1) = A
  have h : (fun i j => (A.entry i j).div 1) = A.entry := by
    funext i j; exact CQ.div_one _
  rw [h]

/-- `partial_trace([0])` on a two-subsystem operator with dimension tuple
`(2, 2)`: the code sums row axis `0` and column axis `2` independently, so the
result entry at `(p, q)` is the sum of the four entries `(2a + p, 2b + q)` over
`a, b ∈ {0, 1}`. -/
theorem ptrace22_eval (cls : OpClass) (M : Mat) (p q : ℕ) :
    ((Op.mk cls [2, 2] M).ptrace [0]).dim = [2] ∧
    ((Op.mk cls [2, 2] M).ptrace [0]).M.n = 2 ∧
    ((Op.mk cls [2, 2] M).ptrace [0]).M.entry p q =
      (M.entry p q + (M.entry p (2 + q) + 0)) +
        ((M.entry (2 + p) q + (M.entry (2 + p) (2 + q) + 0)) + 0) := by
  refine ⟨rfl, rfl, ?_⟩
  show ((allIdx [2]).map (fun a =>
      ((allIdx [2]).map (fun b =>
        M.entry
          (flatten [2, 2] (mergeIdx [0] (List.range 2) (unflatten [2] p) a))
          (flatten [2, 2] (mergeIdx [0] (List.range 2) (unflatten [2] q) b)))).sum)).sum = _
  norm_num [allIdx, mergeIdx, unflatten, flatten, prodL, List.range_succ]

/-- C3: evaluation of the code at the failing input.  The density operator
built from `|+⟩⟨+| ⊗ |0⟩⟨0|` (dimension tuple `(2, 2)`, trace exactly `1`) is
accepted as valid, but `partial_trace([0])` returns the matrix
`[[2, 0], [0, 0]]` with dimension tuple `(2,)`: its trace is `2`, not `1` —
`np.sum` over the two listed axes adds all row/column index combinations
instead of only the paired diagonal ones, and no re-normalization runs because
`__new__` bypasses `__init__`. -/
theorem ptrace_failing_input_eval :
    exOk (DensityOperator.init ptCexM (some [2, 2])) = true ∧
    ptCexRun = .ok ([2], ⟨2, 0⟩, ⟨2, 0⟩, 0, 0, 0) ∧
    (⟨2, 0⟩ : CQ) ≠ 1 := by
  have hd : prodL [2, 2] = ptCexM.n := rfl
  have htr : ptCexM.tr = 1 := by
    norm_num [Mat.tr, ptCexM, Mat.ofRows, Finset.sum_range_succ, List.getD, CQ.one_def,
      CQ.mk.injEq]
  have h1 : ptCexM.tr ≠ 0 := by
    rw [htr]; intro hc; exact absurd (congrArg CQ.re hc) (by norm_num)
  have hMdiv : ptCexM.divC ptCexM.tr = ptCexM := by rw [htr, Mat.divC_one]
  have h2 : (ptCexM.divC ptCexM.tr).isHermitian := by
    rw [hMdiv]
    intro i hi j hj
    fin_cases hi <;> fin_cases hj <;>
      norm_num [ptCexM, Mat.ofRows, List.getD, CQ.conj, CQ.mk.injEq]
  have hinit : DensityOperator.init ptCexM (some [2, 2]) =
      .ok ⟨.densityOperator, [2, 2], ptCexM⟩ := by
    rw [densityInit_some_eval ptCexM [2, 2] hd, if_neg h1, if_pos h2, hMdiv]
  refine ⟨by rw [hinit]; rfl, ?_, by norm_num [CQ.one_def, CQ.mk.injEq]⟩
  show (DensityOperator.init ptCexM (some [2, 2])).map _ = _
  rw [hinit]
  show Except.ok
      (((Op.mk .densityOperator [2, 2] ptCexM).ptrace [0]).dim,
       ((Op.mk .densityOperator [2, 2] ptCexM).ptrace [0]).M.tr,
       ((Op.mk .densityOperator [2, 2] ptCexM).ptrace [0]).M.entry 0 0,
       ((Op.mk .densityOperator [2, 2] ptCexM).ptrace [0]).M.entry 0 1,
       ((Op.mk .densityOperator [2, 2] ptCexM).ptrace [0]).M.entry 1 0,
       ((Op.mk .densityOperator [2, 2] ptCexM).ptrace [0]).M.entry 1 1) = _
  have he := fun p q => (ptrace22_eval .densityOperator ptCexM p q).2.2
  have hdim := (ptrace22_eval .densityOperator ptCexM 0 0).1
  have htr2 : ((Op.mk .densityOperator [2, 2] ptCexM).ptrace [0]).M.tr = ⟨2, 0⟩ := by
    show ∑ i ∈ Finset.range ((Op.mk .densityOperator [2, 2] ptCexM).ptrace [0]).M.n,
        ((Op.mk .densityOperator [2, 2] ptCexM).ptrace [0]).M.entry i i = _
    rw [(ptrace22_eval .densityOperator ptCexM 0 0).2.1]
    rw [Finset.sum_range_succ, Finset.sum_range_succ, Finset.sum_range_zero, he 0 0, he 1 1]
    norm_num [ptCexM, Mat.ofRows, List.getD, CQ.mk.injEq]
  rw [hdim, htr2, he 0 0, he 0 1, he 1 0, he 1 1]
  norm_num [ptCexM, Mat.ofRows, List.getD, CQ.mk.injEq, CQ.zero_def]

/-! ## C8 — kron: totality, concatenation, associativity -/

/-- C8: `Operator.kron` is total between Operators (it is a plain function
here, mirroring that the code only raises on non-Operator arguments), returns
the concatenated dimension tuple and the matrix Kronecker product, and is
associative up to `Operator.__eq__` (equal dimension tuples and exact matrix
equality). -/
theorem kron_concat_and_assoc (A B C : Op) :
    (A.kron B).dim = A.dim ++ B.dim ∧
    (A.kron B).M = A.M.kron B.M ∧
    Op.eqv ((A.kron B).kron C) (A.kron (B.kron C)) := by
  refine ⟨rfl, rfl, List.append_assoc A.dim B.dim C.dim, Nat.mul_assoc _ _ _, ?_⟩
  intro i hi j hj
  show (A.M.entry (i / C.M.n / B.M.n) (j / C.M.n / B.M.n) *
          B.M.entry (i / C.M.n % B.M.n) (j / C.M.n % B.M.n)) *
        C.M.entry (i % C.M.n) (j % C.M.n) =
      A.M.entry (i / (B.M.n * C.M.n)) (j / (B.M.n * C.M.n)) *
        (B.M.entry (i % (B.M.n * C.M.n) / C.M.n) (j % (B.M.n * C.M.n) / C.M.n) *
          C.M.entry (i % (B.M.n * C.M.n) % C.M.n) (j % (B.M.n * C.M.n) % C.M.n))
  have e1 : ∀ x : ℕ, x / C.M.n / B.M.n = x / (B.M.n * C.M.n) := fun x => by
    rw [Nat.div_div_eq_div_mul, Nat.mul_comm]
  have e2 : ∀ x : ℕ, x / C.M.n % B.M.n = x % (B.M.n * C.M.n) / C.M.n := fun x => by
    rw [Nat.mul_comm, Nat.mod_mul_right_div_self]
  have e3 : ∀ x : ℕ, x % C.M.n = x % (B.M.n * C.M.n) % C.M.n := fun x =>
    (Nat.mod_mod_of_dvd x (dvd_mul_left C.M.n B.M.n)).symm
  rw [e1 i, e1 j, e2 i, e2 j, e3 i, e3 j, mul_assoc]

/-! ## from_axes helpers -/

/-- Every single-spin axis matrix has the side of its `m`-value list. -/
theorem axMat_n (sq : ℚ → ℚ) (mv : List ℚ) (ax : Char) : (axMat sq mv ax).n = mv.length := by
  unfold axMat
  split_ifs <;> rfl

/-- The `m`-value list has `int(2 I + 1)` entries. -/
theorem mvals_length (I : ℚ) : (mvals I).length = natDim I := by
  rw [mvals]
  unfold linspaceQ
  rw [List.length_map, List.length_range]

/-- `from_axes` on a single valid spin and a valid axis: the result is a
`SpinOperator` with dimension tuple `(int(2 I + 1),)` and the dispatched
single-spin matrix. -/
theorem fromAxes_single (sq : ℚ → ℚ) (I : ℚ) (ax : Char)
    (hI : spinAccept I) (hax : ax ∈ ['x', 'y', 'z', '+', '-', '0']) :
    SpinOperator.fromAxes sq [I] [ax] =
      .ok ⟨.spinOperator, [natDim I], axMat sq (mvals I) ax⟩ := by
  have hcond : ¬ (qmod I (1 / 2) ≠ 0 ∨ I < 1 / 2) := by
    push_neg
    exact ⟨hI.1, hI.2⟩
  have hb : buildMats sq ([I].zip [ax]) = .ok [axMat sq (mvals I) ax] := by
    show buildMats sq [(I, ax)] = _
    unfold buildMats
    rw [if_neg hcond, if_neg (not_not_intro hax)]
    rfl
  have hn : prodL ([I].map natDim) = (axMat sq (mvals I) ax).n := by
    rw [axMat_n, mvals_length]
    show natDim I * 1 = natDim I
    exact Nat.mul_one _
  unfold SpinOperator.fromAxes
  rw [if_neg (by simp), hb]
  show Op.init .spinOperator (List.foldl Mat.kron (axMat sq (mvals I) ax) [])
      (some ([I].map natDim)) = _
  rw [opInit_some_eval]
  simp only [List.foldl_nil]
  rw [if_pos hn]
  rfl

/-! ## C2 — expectation: formula, dimension error, complex return value -/

/-- C2 (amended): with a `SpinOperator` argument of identical dimension tuple,
`expectation` returns `np.sum(operator.matrix * self.matrix.T)` — equal to the
trace of the matrix product `op · rho` — as a complex scalar (no imaginary
residue is discarded by `expectation` itself; the real part is only taken
later, in `run_experiment`'s averaging); with a different dimension tuple it
fails with the incompatible-dimension `ValueError`. -/
theorem expectation_formula_and_dim_error (rho x : Op) (hcls : x.cls = .spinOperator) :
    (x.dim = rho.dim →
      rho.expectation x = .ok ((x.M.hadamard rho.M.transpose).sumAll) ∧
      (x.M.hadamard rho.M.transpose).sumAll = (x.M.mulM rho.M).tr) ∧
    (x.dim ≠ rho.dim →
      rho.expectation x =
        .error (.valueError "SpinOperator and DensityOperator do not have compatible dimensions")) := by
  have hnn : ¬ (x.cls ≠ OpClass.spinOperator) := fun hne => hne hcls
  constructor
  · intro hdim
    refine ⟨?_, rfl⟩
    unfold Op.expectation
    rw [if_neg hnn, if_neg (not_not_intro hdim)]
  · intro hne
    unfold Op.expectation
    rw [if_neg hnn, if_pos hne]

/-- `int(2 * (1/2) + 1) = 2`. -/
theorem natDim_half : natDim (1/2) = 2 := by
  norm_num [natDim]
  rfl

/-- The `m`-value list of a spin 1/2. -/
theorem mvals_half : mvals (1/2) = [1/2, -1/2] := by
  rw [mvals, natDim_half]
  unfold linspaceQ
  rw [List.range_succ, List.range_succ, List.range_zero]
  norm_num

/-- The spin-1/2 raising matrix, concretely (its only superdiagonal entry is
`0.5 * sqrt 1`, and `sqId 1 = 1` is the true square root of `1`). -/
theorem sp_half : Sp sqId (mvals (1/2)) =
    ⟨2, fun i j => if j = i + 1 then ⟨([(1:ℚ)/2].getD i 0), 0⟩ else 0⟩ := by
  rw [mvals_half]
  show Mat.mk 2 _ = _
  have hv : ((cumsum ([(1:ℚ)/2, -(1:ℚ)/2].map (fun m => 2 * m))).dropLast).map
      (fun c => (1 / 2 : ℚ) * sqId c) = [(1:ℚ)/2] := by
    norm_num [cumsum, List.range_succ, sqId]
  rw [hv]

/-- The density operator built from `rhoCexM` is accepted and keeps its matrix
(the trace is exactly `1`). -/
theorem rhoCex_init : DensityOperator.init rhoCexM none = .ok ⟨.densityOperator, [2], rhoCexM⟩ := by
  have htr : rhoCexM.tr = 1 := by
    norm_num [Mat.tr, rhoCexM, Mat.ofRows, Finset.sum_range_succ, List.getD, CQ.one_def,
      CQ.mk.injEq]
  have h1 : rhoCexM.tr ≠ 0 := by
    rw [htr]; intro hc; exact absurd (congrArg CQ.re hc) (by norm_num)
  have hMdiv : rhoCexM.divC rhoCexM.tr = rhoCexM := by rw [htr, Mat.divC_one]
  have h2 : (rhoCexM.divC rhoCexM.tr).isHermitian := by
    rw [hMdiv]
    intro i hi j hj
    fin_cases hi <;> fin_cases hj <;>
      norm_num [rhoCexM, Mat.ofRows, List.getD, CQ.conj, CQ.mk.injEq]
  rw [densityInit_eval, if_neg h1, if_pos h2, hMdiv]
  rfl

/-- C2 counterexample: on the valid density operator `[[1/2, i], [-i, 1/2]]`
and the spin-1/2 raising `SpinOperator`, `expectation` returns `-i/2`, whose
imaginary part is not zero — the returned scalar is not real and no imaginary
residue is discarded. -/
theorem expectation_imaginary_counterexample :
    expectationCex = .ok ⟨0, -(1/2)⟩ ∧ ((⟨0, -(1/2)⟩ : CQ).im ≠ 0) := by
  have hI : spinAccept (1/2) := by
    constructor
    · norm_num [qmod]
    · norm_num
  have hax : axMat sqId (mvals (1/2)) '+' = Sp sqId (mvals (1/2)) := by
    simp [axMat]
  have hfa : SpinOperator.fromAxes sqId [1/2] ['+'] =
      .ok ⟨.spinOperator, [2],
        ⟨2, fun i j => if j = i + 1 then ⟨([(1:ℚ)/2].getD i 0), 0⟩ else 0⟩⟩ := by
    rw [fromAxes_single sqId (1/2) '+' hI (by simp), hax, sp_half, natDim_half]
  refine ⟨?_, by norm_num⟩
  unfold expectationCex
  rw [rhoCex_init, hfa]
  show Op.expectation ⟨.densityOperator, [2], rhoCexM⟩
      ⟨.spinOperator, [2], ⟨2, fun i j => if j = i + 1 then ⟨([(1:ℚ)/2].getD i 0), 0⟩ else 0⟩⟩ = _
  unfold Op.expectation
  rw [if_neg (fun h => h rfl), if_neg (not_not_intro rfl)]
  show Except.ok (Mat.sumAll _) = _
  congr 1
  show ∑ i ∈ Finset.range 2, ∑ j ∈ Finset.range 2,
      ((if j = i + 1 then (⟨([(1:ℚ)/2].getD i 0), 0⟩ : CQ) else 0) * rhoCexM.entry j i) = _
  norm_num [Finset.sum_range_succ, rhoCexM, Mat.ofRows, List.getD, CQ.zero_def, CQ.mk.injEq]

/-- C2 witness: the amended theorem applied to two concrete operators with the
identical dimension tuple. -/
theorem expectation_formula_witness :
    (Op.mk .spinOperator [2] (Mat.eye 2)).cls = OpClass.spinOperator ∧
    Op.expectation (Op.mk .densityOperator [2] (Mat.eye 2)) (Op.mk .spinOperator [2] (Mat.eye 2)) =
      .ok (((Mat.eye 2).hadamard (Mat.eye 2).transpose).sumAll) :=
  ⟨rfl, ((expectation_formula_and_dim_error (Op.mk .densityOperator [2] (Mat.eye 2))
    (Op.mk .spinOperator [2] (Mat.eye 2)) rfl).1 rfl).1⟩

/-! ## C6 — spin validation -/

/-- The validation of `from_axes` accepts exactly the positive half-integers:
`I % 0.5 == 0` and `I ≥ 0.5`, i.e. `I = k/2` for a natural `k ≥ 1`. -/
theorem spinAccept_iff (I : ℚ) : spinAccept I ↔ ∃ k : ℕ, 1 ≤ k ∧ I = (k : ℚ) / 2 := by
  have hdiv : I / (1/2 : ℚ) = 2 * I := by ring
  constructor
  · rintro ⟨h1, h2⟩
    rw [qmod, hdiv] at h1
    have hz : ((⌊2 * I⌋ : ℤ) : ℚ) = 2 * I := by linarith
    have hz1 : (1 : ℚ) ≤ ((⌊2 * I⌋ : ℤ) : ℚ) := by rw [hz]; linarith
    have hz1' : (1 : ℤ) ≤ ⌊2 * I⌋ := by exact_mod_cast hz1
    refine ⟨(⌊2 * I⌋).toNat, ?_, ?_⟩
    · omega
    · have hc : (((⌊2 * I⌋).toNat : ℤ) : ℚ) = ((⌊2 * I⌋ : ℤ) : ℚ) := by
        congr 1
        omega
      push_cast at hc
      rw [hc, hz]; ring
  · rintro ⟨k, hk, rfl⟩
    constructor
    · rw [qmod, hdiv]
      have : 2 * ((k : ℚ) / 2) = (k : ℚ) := by ring
      rw [this, Int.floor_natCast]
      push_cast; ring
    · have : (1 : ℚ) ≤ (k : ℚ) := by exact_mod_cast hk
      linarith

/-- `from_axes` raises the spin-validation `ValueError` for every rejected
spin value. -/
theorem fromAxes_invalid (sq : ℚ → ℚ) (I : ℚ) (h : ¬ spinAccept I) :
    SpinOperator.fromAxes sq [I] ['x'] = .error (.valueError "is not a valid spin value") := by
  have hcond : qmod I (1/2) ≠ 0 ∨ I < 1/2 := by
    rcases not_and_or.mp h with h1 | h2
    · exact Or.inl h1
    · exact Or.inr (not_le.mp h2)
  have hb : buildMats sq ([I].zip ['x']) = .error (.valueError "is not a valid spin value") := by
    show buildMats sq [(I, 'x')] = _
    unfold buildMats
    rw [if_pos hcond]
  unfold SpinOperator.fromAxes
  rw [if_neg (by simp), hb]
  rfl

/-- C6 (amended): `from_axes` accepts exactly the positive half-integers
(`I = k/2` with `k ≥ 1`, so spin `0` is rejected even though it is a
non-negative half-integer) and fails with the spin-validation `ValueError` for
every other spin value; in particular `0.3` fails. -/
theorem spin_validation_amended (sq : ℚ → ℚ) (I : ℚ) :
    (spinAccept I ↔ ∃ k : ℕ, 1 ≤ k ∧ I = (k : ℚ) / 2) ∧
    (spinAccept I → exOk (SpinOperator.fromAxes sq [I] ['x']) = true) ∧
    (¬ spinAccept I → SpinOperator.fromAxes sq [I] ['x'] =
      .error (.valueError "is not a valid spin value")) ∧
    SpinOperator.fromAxes sq [(3:ℚ)/10] ['x'] =
      .error (.valueError "is not a valid spin value") := by
  refine ⟨spinAccept_iff I, ?_, fromAxes_invalid sq I, ?_⟩
  · intro h
    rw [fromAxes_single sq I 'x' h (by simp)]
    rfl
  · refine fromAxes_invalid sq ((3:ℚ)/10) ?_
    intro h
    have h1 := h.1
    rw [qmod] at h1
    norm_num at h1

/-- C6 counterexample: `0` is a non-negative half-integer (`0 = 0/2`, `0 ≥ 0`)
yet `from_axes` rejects it with the spin-validation error, refuting "accepts
every non-negative half-integer". -/
theorem spin_zero_rejected_counterexample :
    ((0:ℚ) = ((0:ℕ) : ℚ) / 2) ∧ ((0:ℚ) ≤ (0:ℚ)) ∧
    SpinOperator.fromAxes sqId [0] ['x'] =
      .error (.valueError "is not a valid spin value") :=
  ⟨by norm_num, le_refl 0,
    fromAxes_invalid sqId 0 (fun h => absurd h.2 (by norm_num))⟩

/-- C6 witness: spin 1/2 is accepted. -/
theorem spin_validation_witness :
    spinAccept (1/2) ∧ exOk (SpinOperator.fromAxes sqId [1/2] ['x']) = true := by
  have h : spinAccept (1/2) := by
    constructor
    · norm_num [qmod]
    · norm_num
  exact ⟨h, (spin_validation_amended sqId (1/2)).2.1 h⟩

/-! ## C7 — muon_axis handling -/

/-- C7 (amended): `set_starting_state` maps the symbolic names x/y/z to unit
vectors and fails with the `InvalidAxisError` for every other string; but any
non-string `muon_axis` is treated as a vector and divided by its Euclidean
norm, so every vector — unit or not — is accepted at this step (no unit-length
requirement is enforced, and no `InvalidAxisError` can arise on the vector
path). -/
theorem muon_axis_amended (sq : ℚ → ℚ) (s : String) (v : List ℚ) :
    resolveMuonAxis sq (.str "x") = .ok [1, 0, 0] ∧
    resolveMuonAxis sq (.str "y") = .ok [0, 1, 0] ∧
    resolveMuonAxis sq (.str "z") = .ok [0, 0, 1] ∧
    (s ≠ "x" → s ≠ "y" → s ≠ "z" →
      resolveMuonAxis sq (.str s) =
        .error (.valueError "muon_axis must be a vector or x, y or z")) ∧
    resolveMuonAxis sq (.vec v) =
      .ok (v.map (fun x => x / sq ((v.map (fun y => y * y)).sum))) := by
  refine ⟨by simp [resolveMuonAxis], by simp [resolveMuonAxis], by simp [resolveMuonAxis],
    ?_, rfl⟩
  intro h1 h2 h3
  simp [resolveMuonAxis, h1, h2, h3]

/-- C7 counterexample: `[2, 0, 0]` is neither a unit 3-vector (its squared
norm is 4) nor a symbolic axis name, yet `set_starting_state` accepts it
(normalizing it) instead of failing with the `InvalidAxisError`. -/
theorem muon_axis_nonunit_accepted_counterexample :
    (([2, 0, 0] : List ℚ).map (fun y => y * y)).sum ≠ 1 ∧
    exOk (resolveMuonAxis sqId (.vec [2, 0, 0])) = true :=
  ⟨by norm_num, rfl⟩

/-- C7 witness: the string "w" is rejected with the `InvalidAxisError`. -/
theorem muon_axis_witness :
    ("w" : String) ≠ "x" ∧
    resolveMuonAxis sqId (.str "w") =
      .error (.valueError "muon_axis must be a vector or x, y or z") :=
  ⟨by decide, (muon_axis_amended sqId "w" []).2.2.2.1 (by decide) (by decide) (by decide)⟩

/-! ## C4 — run_experiment weighted averaging -/

/-- Scalar multiplication by a real weight sends `0` to `0`. -/
theorem smulQ_zero' (c : ℚ) : CQ.smulQ c 0 = 0 := by ext <;> simp

/-- Scalar multiplication by a real weight is additive. -/
theorem smulQ_add' (c : ℚ) (p q : CQ) :
    CQ.smulQ c (p + q) = CQ.smulQ c p + CQ.smulQ c q := by ext <;> simp <;> ring

/-- Scalar multiplication by a product of real weights, unfolded. -/
theorem smulQ_mul' (c a : ℚ) (x : CQ) :
    CQ.smulQ (c * a) x = CQ.smulQ c (CQ.smulQ a x) := by ext <;> simp <;> ring

/-- Rescaling every weight by `c` rescales the weighted sum by `c`. -/
theorem zip_smul_scale (c : ℚ) (w : List ℚ) :
    ∀ d : List CQ,
      (List.zipWith CQ.smulQ (w.map (fun x => c * x)) d).sum =
        CQ.smulQ c (List.zipWith CQ.smulQ w d).sum := by
  induction w with
  | nil => intro d; simp [smulQ_zero']
  | cons a w ih =>
      intro d
      cases d with
      | nil => simp [smulQ_zero']
      | cons x d =>
          simp only [List.map_cons, List.zipWith_cons_cons, List.sum_cons, ih d,
            smulQ_add', smulQ_mul']

/-- Rescaling every weight by `c` rescales the weight sum by `c`. -/
theorem sum_map_mul_left' (c : ℚ) (w : List ℚ) :
    (w.map (fun x => c * x)).sum = c * w.sum := by
  induction w with
  | nil => simp
  | cons a w ih => simp [ih]; ring

/-- C4: `run_experiment` averages the per-orientation results as the real part
of the weighted mean `np.average(data, weights) = (Σ wᵢ dataᵢ) / (Σ wᵢ)`
(third conjunct, the division by the weight sum), so rescaling every weight by
one positive factor leaves the result unchanged (first conjunct), and a run
with the single orientation and unit weight installed by `set_single_crystal`
equals exactly the single-crystal result `Re (f (theta, phi))` for the same
angles (second conjunct).  The hypothesis on the weight sum reflects that
`np.average` fails on a zero weight sum. -/
theorem run_experiment_weighted_average (f : ℚ × ℚ → CQ) (orients : List (ℚ × ℚ))
    (w : List ℚ) (c theta phi : ℚ) (hc : 0 < c) (_hw : w.sum ≠ 0) :
    runExperimentAvg f orients (w.map (fun x => c * x)) = runExperimentAvg f orients w ∧
    runExperimentAvg f (setSingleCrystal theta phi).1 (setSingleCrystal theta phi).2 =
      (f (theta, phi)).re ∧
    runExperimentAvg f orients w =
      (((List.zipWith CQ.smulQ w (orients.map f)).sum).divQ w.sum).re := by
  refine ⟨?_, ?_, rfl⟩
  · unfold runExperimentAvg weightedRealAvg
    rw [zip_smul_scale, sum_map_mul_left']
    show (CQ.divQ (CQ.smulQ c _) (c * w.sum)).re = _
    rw [CQ.divQ_re, CQ.divQ_re, CQ.smulQ_re, mul_div_mul_left _ _ (ne_of_gt hc)]
  · simp [runExperimentAvg, setSingleCrystal, weightedRealAvg, CQ.smulQ, CQ.divQ]

/-- C4 witness: the theorem applied to two orientations with weights `[1, 3]`
rescaled by `2`. -/
theorem run_experiment_weighted_average_witness :
    ((0:ℚ) < 2) ∧ (([1, 3] : List ℚ).sum ≠ 0) ∧
    runExperimentAvg (fun p => ⟨p.1 + p.2, p.1⟩) [((2:ℚ), (3:ℚ)), (0, 1)]
        (([1, 3] : List ℚ).map (fun x => (2:ℚ) * x)) =
      runExperimentAvg (fun p => ⟨p.1 + p.2, p.1⟩) [((2:ℚ), (3:ℚ)), (0, 1)] [1, 3] :=
  ⟨by norm_num, by norm_num,
    (run_experiment_weighted_average (fun p => ⟨p.1 + p.2, p.1⟩) [((2:ℚ), (3:ℚ)), (0, 1)]
      [1, 3] 2 0 0 (by norm_num) (by norm_num)).1⟩


/-! ## C9 — single-spin operator algebra -/

/-- For an accepted spin `k/2`, the matrix side `int(2 I + 1)` is `k + 1`. -/
theorem natDim_of_accept (I : ℚ) (k : ℕ) (_hk : 1 ≤ k) (hIk : I = (k : ℚ) / 2) :
    natDim I = k + 1 := by
  subst hIk
  unfold natDim
  have h : 2 * ((k : ℚ) / 2) + 1 = ((k + 1 : ℕ) : ℚ) := by push_cast; ring
  rw [h, Int.floor_natCast]
  simp

/-- C9: for every valid spin `I`, writing `Sp` for the raising matrix of
`from_axes(I, '+')`: the lowering operator `from_axes(I, '-')` has matrix
`Sp.T` (transpose of the raising matrix); `from_axes(I, 'x')` equals
`from_axes(I, '+') + from_axes(I, '-')` under `Operator.__add__`;
`from_axes(I, 'y')` equals `1j * (from_axes(I, '-') - from_axes(I, '+'))`
under `Operator.__sub__` and scalar `__mul__`; and `from_axes(I, 'z')` is the
diagonal of the `m` values `I, I-1, ..., -I` (entry `(j, j)` is `I - j`, off
diagonal zero). -/
theorem single_spin_axes_algebra (sq : ℚ → ℚ) (I : ℚ) (hI : spinAccept I) :
    SpinOperator.fromAxes sq [I] ['-'] =
      .ok ⟨.spinOperator, [natDim I], (Sp sq (mvals I)).transpose⟩ ∧
    SpinOperator.fromAxes sq [I] ['+'] =
      .ok ⟨.spinOperator, [natDim I], Sp sq (mvals I)⟩ ∧
    Op.addOp ⟨.spinOperator, [natDim I], Sp sq (mvals I)⟩
        ⟨.spinOperator, [natDim I], (Sp sq (mvals I)).transpose⟩ =
      .ok ⟨.spinOperator, [natDim I], Sx sq (mvals I)⟩ ∧
    SpinOperator.fromAxes sq [I] ['x'] =
      .ok ⟨.spinOperator, [natDim I], Sx sq (mvals I)⟩ ∧
    Op.subOp ⟨.spinOperator, [natDim I], (Sp sq (mvals I)).transpose⟩
        ⟨.spinOperator, [natDim I], Sp sq (mvals I)⟩ =
      .ok ⟨.spinOperator, [natDim I], (Sp sq (mvals I)).transpose.sub (Sp sq (mvals I))⟩ ∧
    Op.smulOp
        ⟨.spinOperator, [natDim I], (Sp sq (mvals I)).transpose.sub (Sp sq (mvals I))⟩ ⟨0, 1⟩ =
      ⟨.spinOperator, [natDim I], Sy sq (mvals I)⟩ ∧
    SpinOperator.fromAxes sq [I] ['y'] =
      .ok ⟨.spinOperator, [natDim I], Sy sq (mvals I)⟩ ∧
    SpinOperator.fromAxes sq [I] ['z'] =
      .ok ⟨.spinOperator, [natDim I], Sz (mvals I)⟩ ∧
    (∀ j < natDim I, (Sz (mvals I)).entry j j = ⟨I - (j : ℚ), 0⟩) ∧
    (∀ i j : ℕ, i ≠ j → (Sz (mvals I)).entry i j = 0) := by
  obtain ⟨k, hk, hIk⟩ := (spinAccept_iff I).mp hI
  have hfm : SpinOperator.fromAxes sq [I] ['-'] =
      .ok ⟨.spinOperator, [natDim I], (Sp sq (mvals I)).transpose⟩ := by
    rw [fromAxes_single sq I '-' hI (by simp)]
    have : axMat sq (mvals I) '-' = (Sp sq (mvals I)).transpose := by simp [axMat, Sm]
    rw [this]
  have hfp : SpinOperator.fromAxes sq [I] ['+'] =
      .ok ⟨.spinOperator, [natDim I], Sp sq (mvals I)⟩ := by
    rw [fromAxes_single sq I '+' hI (by simp)]
    have : axMat sq (mvals I) '+' = Sp sq (mvals I) := by simp [axMat]
    rw [this]
  have hfx : SpinOperator.fromAxes sq [I] ['x'] =
      .ok ⟨.spinOperator, [natDim I], Sx sq (mvals I)⟩ := by
    rw [fromAxes_single sq I 'x' hI (by simp)]
    have : axMat sq (mvals I) 'x' = Sx sq (mvals I) := by simp [axMat]
    rw [this]
  have hfy : SpinOperator.fromAxes sq [I] ['y'] =
      .ok ⟨.spinOperator, [natDim I], Sy sq (mvals I)⟩ := by
    rw [fromAxes_single sq I 'y' hI (by simp)]
    have : axMat sq (mvals I) 'y' = Sy sq (mvals I) := by simp [axMat]
    rw [this]
  have hfz : SpinOperator.fromAxes sq [I] ['z'] =
      .ok ⟨.spinOperator, [natDim I], Sz (mvals I)⟩ := by
    rw [fromAxes_single sq I 'z' hI (by simp)]
    have : axMat sq (mvals I) 'z' = Sz (mvals I) := by simp [axMat]
    rw [this]
  have hadd : Op.addOp ⟨.spinOperator, [natDim I], Sp sq (mvals I)⟩
      ⟨.spinOperator, [natDim I], (Sp sq (mvals I)).transpose⟩ =
      .ok ⟨.spinOperator, [natDim I], Sx sq (mvals I)⟩ := by
    unfold Op.addOp
    rw [if_pos rfl]
    rfl
  have hsub : Op.subOp ⟨.spinOperator, [natDim I], (Sp sq (mvals I)).transpose⟩
      ⟨.spinOperator, [natDim I], Sp sq (mvals I)⟩ =
      .ok ⟨.spinOperator, [natDim I], (Sp sq (mvals I)).transpose.sub (Sp sq (mvals I))⟩ := by
    unfold Op.subOp
    rw [if_pos rfl]
  have hdiag : ∀ j < natDim I, (Sz (mvals I)).entry j j = ⟨I - (j : ℚ), 0⟩ := by
    intro j hj
    show (if j = j then (⟨(mvals I).getD j 0, 0⟩ : CQ) else 0) = _
    rw [if_pos rfl]
    have hjn : j < natDim I := hj
    have hget : (mvals I).getD j 0 =
        I + (j : ℚ) * ((-I - I) / ((natDim I : ℚ) - 1)) := by
      rw [mvals]
      unfold linspaceQ
      rw [List.getD_eq_getElem?_getD, List.getElem?_map, List.getElem?_range hjn]
      rfl
    rw [hget]
    have hn : natDim I = k + 1 := natDim_of_accept I k hk hIk
    have hk0 : ((k : ℚ)) ≠ 0 := by
      have : (1 : ℚ) ≤ (k : ℚ) := by exact_mod_cast hk
      linarith
    have hstep : (-I - I) / ((natDim I : ℚ) - 1) = -1 := by
      rw [hn, hIk]
      push_cast
      field_simp
      ring
    rw [hstep]
    congr 1
    ring
  have hoff : ∀ i j : ℕ, i ≠ j → (Sz (mvals I)).entry i j = 0 := by
    intro i j hij
    show (if i = j then (⟨(mvals I).getD i 0, 0⟩ : CQ) else 0) = 0
    rw [if_neg hij]
  exact ⟨hfm, hfp, hadd, hfx, hsub, rfl, hfy, hfz, hdiag, hoff⟩

/-- C9 witness: the algebra theorem applied at spin 1/2. -/
theorem single_spin_axes_witness :
    spinAccept (1/2) ∧
    SpinOperator.fromAxes sqId [1/2] ['-'] =
      .ok ⟨.spinOperator, [natDim (1/2)], (Sp sqId (mvals (1/2))).transpose⟩ := by
  have h : spinAccept (1/2) := by
    constructor
    · norm_num [qmod]
    · norm_num
  exact ⟨h, (single_spin_axes_algebra sqId (1/2) h).1⟩


/-! ## C5 — thermal populations of set_starting_state -/

/-- A left fold of `min` returns its seed or a list element. -/
theorem foldl_min_choice (xs : List ℚ) : ∀ a : ℚ, xs.foldl min a = a ∨ xs.foldl min a ∈ xs := by
  induction xs with
  | nil => intro a; exact Or.inl rfl
  | cons x xs ih =>
      intro a
      rcases ih (min a x) with h | h
      · rcases min_choice a x with hm | hm
        · exact Or.inl (by rw [List.foldl_cons, h, hm])
        · exact Or.inr (by rw [List.foldl_cons, h, hm]; exact List.mem_cons_self x xs)
      · exact Or.inr (List.mem_cons_of_mem x h)

/-- `np.amin` of a non-empty list is one of its elements. -/
theorem listMin_mem (E : List ℚ) (hE : E ≠ []) : listMin E ∈ E := by
  cases E with
  | nil => exact absurd rfl hE
  | cons x xs =>
      show xs.foldl min x ∈ x :: xs
      rcases foldl_min_choice xs x with h | h
      · rw [h]; exact List.mem_cons_self x xs
      · exact List.mem_cons_of_mem x h

/-- The sum of the 0/1 indicator weights is the number of minimal entries. -/
theorem sum_indicator (m : ℚ) (E : List ℚ) :
    (E.map (fun e => if e = m then (1:ℚ) else 0)).sum =
      ((E.countP (fun e => e = m) : ℕ) : ℚ) := by
  induction E with
  | nil => simp
  | cons a E ih =>
      rw [List.map_cons, List.sum_cons, ih, List.countP_cons]
      by_cases h : a = m
      · simp [h, add_comm]
      · simp [h]

/-- Entrywise division scales a list sum. -/
theorem sum_map_div (l : List ℚ) (s : ℚ) : (l.map (fun z => z / s)).sum = l.sum / s := by
  induction l with
  | nil => simp
  | cons a l ih => rw [List.map_cons, List.sum_cons, ih, List.sum_cons, add_div]

/-- A constant map is a replicate. -/
theorem map_const_replicate {α β : Type} (E : List α) (c : β) :
    E.map (fun _ => c) = List.replicate E.length c := by
  induction E with
  | nil => rfl
  | cons a E ih => rw [List.map_cons, ih]; rfl

/-- C5: the thermal populations of `set_starting_state` for a non-muon
subsystem with energies `E` (built as `np.diag(Sz) * gamma * B * 1e6`; the
spin system lives in spinsys.py, outside the excerpt, so `E` is quantified)
at temperature `T`, with `expF` for the floating-point `np.exp`:
`T = np.inf` gives the uniform population `1/len(E)` on every level (the
Boltzmann argument is `0` at infinite temperature, so the weights are equal,
and both the normalization branch and the fallback branch yield uniform);
`T ≤ 0` gives all population, equally split, on the minimum-energy level(s);
finite `T > 0` gives the Boltzmann weights `exp(-h*E/(k*T))` renormalized to
sum to exactly `1` whenever their sum is positive; and if the computed weights
sum to zero (floating-point underflow in the code) the populations fall back
to uniform.  The matrix handed to `DensityOperator` is `np.diag` of these
populations (last conjunct). -/
theorem thermal_populations_cases (expF : ℚ → ℚ) (E : List ℚ) (hE : E ≠ []) :
    (thermalZ expF E none = List.replicate E.length (1 / (E.length : ℚ))) ∧
    (∀ t : ℚ, t ≤ 0 →
      thermalZ expF E (some t) =
        E.map (fun e => if e = listMin E then
          (1 : ℚ) / ((E.countP (fun x => x = listMin E) : ℕ) : ℚ) else 0)) ∧
    (∀ t : ℚ, 0 < t →
      thermalZraw expF E (some t) =
        E.map (fun e => expF ((-(hPlanck * e)) / (kBoltz * t))) ∧
      (0 < (thermalZraw expF E (some t)).sum →
        thermalZ expF E (some t) =
          (thermalZraw expF E (some t)).map
            (fun z => z / (thermalZraw expF E (some t)).sum) ∧
        (thermalZ expF E (some t)).sum = 1) ∧
      ((thermalZraw expF E (some t)).sum = 0 →
        thermalZ expF E (some t) = List.replicate E.length (1 / (E.length : ℚ)))) ∧
    thermalDensity expF E none =
      DensityOperator.init (Mat.diagQ (thermalZ expF E none)) none := by
  have hn0 : ((E.length : ℕ) : ℚ) ≠ 0 := by
    have : E.length ≠ 0 := fun h => hE (List.length_eq_zero.mp h)
    exact_mod_cast Nat.cast_ne_zero.mpr this
  refine ⟨?_, ?_, ?_, rfl⟩
  · -- infinite temperature: uniform population whatever expF does at 0
    have hraw : thermalZraw expF E none = E.map (fun _ => expF 0) := rfl
    show normalizeZ E.length (thermalZraw expF E none) = _
    rw [hraw, map_const_replicate]
    unfold normalizeZ
    simp only [List.sum_replicate, nsmul_eq_mul]
    by_cases hc : 0 < (E.length : ℚ) * expF 0
    · rw [if_pos hc, List.map_replicate]
      have hc0 : expF 0 ≠ 0 := by
        intro h
        rw [h, mul_zero] at hc
        exact lt_irrefl 0 hc
      congr 1
      rw [div_eq_div_iff (mul_ne_zero hn0 hc0) hn0]
      ring
    · rw [if_neg hc]
  · -- non-positive temperature: all population on the minimum-energy levels
    intro t ht
    have hraw : thermalZraw expF E (some t) =
        E.map (fun e => if e = listMin E then 1 else 0) := by
      unfold thermalZraw
      rw [show tempPos (some t) = false from decide_eq_false (not_lt.mpr ht)]
      rfl
    show normalizeZ E.length (thermalZraw expF E (some t)) = _
    rw [hraw]
    unfold normalizeZ
    simp only [sum_indicator]
    have hpos : 0 < E.countP (fun x => x = listMin E) :=
      List.countP_pos_iff.mpr ⟨listMin E, listMin_mem E hE, by simp⟩
    rw [if_pos (by exact_mod_cast hpos), List.map_map]
    congr 1
    funext e
    show (if e = listMin E then (1:ℚ) else 0) / _ = _
    split_ifs
    · rfl
    · exact zero_div _
  · -- positive temperature: Boltzmann weights, renormalized or uniform fallback
    intro t ht
    have hraw : thermalZraw expF E (some t) =
        E.map (fun e => expF ((-(hPlanck * e)) / (kBoltz * t))) := by
      unfold thermalZraw
      rw [show tempPos (some t) = true from decide_eq_true ht]
      rfl
    refine ⟨hraw, ?_, ?_⟩
    · intro hS
      constructor
      · show normalizeZ E.length (thermalZraw expF E (some t)) = _
        unfold normalizeZ
        rw [if_pos hS]
      · show (normalizeZ E.length (thermalZraw expF E (some t))).sum = 1
        unfold normalizeZ
        rw [if_pos hS, sum_map_div, div_self (ne_of_gt hS)]
    · intro hS0
      show normalizeZ E.length (thermalZraw expF E (some t)) = _
      unfold normalizeZ
      rw [if_neg (by rw [hS0]; exact lt_irrefl 0)]

/-- C5 witness: the cases theorem applied at energies `[1, -1]`; at infinite
temperature the populations are uniform. -/
theorem thermal_populations_witness :
    (([1, -1] : List ℚ) ≠ []) ∧
    thermalZ (fun _ => 1) [1, -1] none = [1/2, 1/2] := by
  have h := (thermal_populations_cases (fun _ => 1) [1, -1] (by simp)).1
  refine ⟨by simp, ?_⟩
  rw [h]
  show List.replicate 2 (1 / ((2:ℕ) : ℚ)) = [1/2, 1/2]
  norm_num
  rfl
